import Mathlib

/-!
# Verification development for `vhdbuilder/release-notes/autonotes/windows/winnote.go`

The Go program downloads per-variant release-note artifacts.  The embedding below
follows the source function by function:

* Go `string` values are byte sequences (`GoString`); `len` and slicing count bytes.
* `range` over a string decodes UTF-8 runes, `strings.Builder.WriteRune` encodes them.
* Operating-system and external-command calls are recorded as a trace of `Event`s; the
  outcome of every call is an input (`StepResults`).
* Channels are unbuffered: a send completes exactly when the coordinator receives it.
-/

namespace Winnote

/-! ## Strings -/

/-- One byte of a Go string. -/
abbrev Byte := Fin 256

/-- A Go `string`: a sequence of bytes. -/
abbrev GoString := List Byte

/-- A Go `rune` (an `int32` code point; only non-negative values occur here). -/
abbrev Rune := Nat

/-- The rune `utf8.RuneError` (U+FFFD). -/
def runeError : Rune := 0xFFFD

/-- Go `utf8.AppendRune`: the UTF-8 encoding of a rune; surrogates and values above
`utf8.MaxRune` are written as `utf8.RuneError`. -/
def encodeRune (r : Rune) : GoString :=
  if r < 0x80 then [Fin.ofNat r]
  else if r < 0x800 then [Fin.ofNat (0xC0 + r / 64), Fin.ofNat (0x80 + r % 64)]
  else if 0x10FFFF < r ∨ (0xD800 ≤ r ∧ r ≤ 0xDFFF) then [0xEF, 0xBF, 0xBD]
  else if r < 0x10000 then
    [Fin.ofNat (0xE0 + r / 4096), Fin.ofNat (0x80 + r / 64 % 64), Fin.ofNat (0x80 + r % 64)]
  else
    [Fin.ofNat (0xF0 + r / 262144), Fin.ofNat (0x80 + r / 4096 % 64),
      Fin.ofNat (0x80 + r / 64 % 64), Fin.ofNat (0x80 + r % 64)]

/-- The bytes of a Go string literal (Go source text is UTF-8). -/
def goStr (s : String) : GoString :=
  s.toList.flatMap (fun c => encodeRune c.toNat)

/-! ## The command-line flags -/

/-- The `flags` struct (`include` is a reserved word here, so the field is `includeCSV`). -/
structure Flags where
  build : GoString
  includeCSV : GoString
  ignore : GoString
  path : GoString
  date : GoString
deriving DecidableEq, Repr

/-! ## The fetch task `getReleaseNotes` -/

/-- The two `path/filepath` functions the task uses; they belong to the Go standard
library and are taken as parameters. -/
structure PathOps where
  join : GoString → GoString → GoString
  dir : GoString → GoString

/-- The outcome of every fallible call made by one execution of `getReleaseNotes`.
An error is represented by its message (`err.Error()`); `none` means `err == nil`. -/
structure StepResults where
  tempDir : Except GoString GoString
  mkdirParent : Option GoString
  mkdirOut : Option GoString
  notesDownload : GoString × Option GoString
  notesRename : Option GoString
  bomDownload : GoString × Option GoString
  bomRename : Option GoString

/-- The observable actions of `getReleaseNotes`, in program order. -/
inductive Event where
  | tempDir
  | mkdirAll (p : GoString)
  | printf (s : GoString)
  | download (runId dir artifact : GoString)
  | rename (src dst : GoString)
  | removeAll (p : GoString)
  | sendErr (msg : GoString)
  | sendDone
deriving DecidableEq, Repr

/-- The single quote byte used by the `Printf` format. -/
def quote : Byte := 39

/-- The function `getReleaseNotes`: the trace of its actions, the two deferred calls
(`os.RemoveAll(tmpdir)`, then `done <- struct{}{}`) last. -/
def getReleaseNotes (fp : PathOps) (env : StepResults) (sku path : GoString) (fl : Flags)
    (version : GoString) : List Event :=
  -- tmpdir, err := ioutil.TempDir("", "releasenotes"); no return on failure
  let tmpdir : GoString := match env.tempDir with
    | .ok d => d
    | .error _ => []
  let created : List Event := match env.tempDir with
    | .ok _ => [.tempDir]
    | .error e => [.tempDir, .sendErr (goStr "failed to create temp working directory: " ++ e)]
  let releaseNotesName := goStr "vhd-release-notes-" ++ sku
  let releaseNotesFileIn := fp.join tmpdir (goStr "release-notes.txt")
  let imageListName := goStr "vhd-image-bom-" ++ sku
  let imageListFileIn := fp.join tmpdir (goStr "image-bom.json")
  let artifactsDirOut := fp.join fl.path path
  let releaseNotesFileOut := fp.join artifactsDirOut (version ++ goStr ".txt")
  let imageListFileOut := fp.join artifactsDirOut (version ++ goStr "-image-list.json")
  let mkdirMsg (e : GoString) : GoString :=
    goStr "failed to create parent directory " ++ artifactsDirOut ++ goStr " with error: " ++ e
  let renameMsg (src dst e : GoString) : GoString :=
    goStr "failed to rename file " ++ src ++ goStr " to " ++ dst ++ goStr ", err: " ++ e
  let body : List Event :=
    .mkdirAll (fp.dir artifactsDirOut) ::
    match env.mkdirParent with
    | some e => [.sendErr (mkdirMsg e)]
    | none =>
    .mkdirAll artifactsDirOut ::
    match env.mkdirOut with
    | some e => [.sendErr (mkdirMsg e)]
    | none =>
    .printf (goStr "downloading releaseNotes " ++ [quote] ++ releaseNotesName ++ [quote] ++
      goStr " from build " ++ [quote] ++ fl.build ++ [quote] ++ goStr "\n") ::
    .download fl.build tmpdir releaseNotesName ::
    match env.notesDownload with
    | (stdout, some e) =>
      [.sendErr (goStr "failed to download az devops releaseNotes for sku " ++ sku ++
        goStr ", err: " ++ e ++ goStr ", output: " ++ stdout)]
    | (_, none) =>
    .rename releaseNotesFileIn releaseNotesFileOut ::
    match env.notesRename with
    | some e => [.sendErr (renameMsg releaseNotesFileIn releaseNotesFileOut e)]
    | none =>
    .download fl.build tmpdir imageListName ::
    match env.bomDownload with
    | (stdout, some e) =>
      [.sendErr (goStr "failed to download az devops imageList for sku " ++ sku ++
        goStr ", err: " ++ e ++ goStr ", output: " ++ stdout)]
    | (_, none) =>
    .rename imageListFileIn imageListFileOut ::
    match env.bomRename with
    | some e => [.sendErr (renameMsg imageListFileIn imageListFileOut e)]
    | none => []
  created ++ body ++ [.removeAll tmpdir, .sendDone]

/-- A message a task puts on one of the two channels. -/
inductive Msg where
  | err (msg : GoString)
  | done
deriving DecidableEq, Repr

/-- The channel sends of a trace, in order. -/
def sends : List Event → List Msg
  | [] => []
  | .sendErr m :: es => .err m :: sends es
  | .sendDone :: es => .done :: sends es
  | _ :: es => sends es

/-- The failure messages of a trace (the sends on `errc`). -/
def failures : List Event → List GoString
  | [] => []
  | .sendErr m :: es => m :: failures es
  | _ :: es => failures es

/-- Every step of the task succeeded, the workspace being `tmpdir`. -/
def StepResults.allOk (env : StepResults) (tmpdir : GoString) : Prop :=
  env.tempDir = .ok tmpdir ∧ env.mkdirParent = none ∧ env.mkdirOut = none ∧
  env.notesDownload.2 = none ∧ env.notesRename = none ∧
  env.bomDownload.2 = none ∧ env.bomRename = none

/-! ## `stripWhitespace` -/

/-- Go `utf8.DecodeRuneInString` as used by `range` over a string: the first rune of a
non-empty string and its width in bytes; an invalid or truncated encoding yields
`utf8.RuneError` with width 1. -/
def decodeRune : GoString → Rune × Nat
  | [] => (runeError, 0)
  | b0 :: rest =>
    if b0.val < 0x80 then (b0.val, 1)
    else if 0xC2 ≤ b0.val ∧ b0.val ≤ 0xDF then
      match rest with
      | b1 :: _ =>
        if 0x80 ≤ b1.val ∧ b1.val ≤ 0xBF then (b0.val % 32 * 64 + b1.val % 64, 2)
        else (runeError, 1)
      | _ => (runeError, 1)
    else if 0xE0 ≤ b0.val ∧ b0.val ≤ 0xEF then
      let lo := if b0.val = 0xE0 then 0xA0 else 0x80
      let hi := if b0.val = 0xED then 0x9F else 0xBF
      match rest with
      | b1 :: b2 :: _ =>
        if lo ≤ b1.val ∧ b1.val ≤ hi ∧ 0x80 ≤ b2.val ∧ b2.val ≤ 0xBF then
          (b0.val % 16 * 4096 + b1.val % 64 * 64 + b2.val % 64, 3)
        else (runeError, 1)
      | _ => (runeError, 1)
    else if 0xF0 ≤ b0.val ∧ b0.val ≤ 0xF4 then
      let lo := if b0.val = 0xF0 then 0x90 else 0x80
      let hi := if b0.val = 0xF4 then 0x8F else 0xBF
      match rest with
      | b1 :: b2 :: b3 :: _ =>
        if lo ≤ b1.val ∧ b1.val ≤ hi ∧ 0x80 ≤ b2.val ∧ b2.val ≤ 0xBF ∧
            0x80 ≤ b3.val ∧ b3.val ≤ 0xBF then
          (b0.val % 8 * 262144 + b1.val % 64 * 4096 + b2.val % 64 * 64 + b3.val % 64, 4)
        else (runeError, 1)
      | _ => (runeError, 1)
    else (runeError, 1)

/-- A rune `range` can yield: a Unicode scalar value. -/
def validRune (r : Nat) : Prop := r < 0xD800 ∨ (0xE000 ≤ r ∧ r < 0x110000)

/-- The runes `for _, ch := range str` yields, with `fuel` bounding the iterations. -/
def runesAux : Nat → GoString → List Rune
  | 0, _ => []
  | _ + 1, [] => []
  | fuel + 1, b :: rest =>
    (decodeRune (b :: rest)).1 :: runesAux fuel ((b :: rest).drop (decodeRune (b :: rest)).2)

/-- The runes `for _, ch := range str` yields. -/
def runes (str : GoString) : List Rune := runesAux str.length str

/-- Go `unicode.IsSpace`: the Latin-1 spaces and the `White_Space` property table. -/
def isSpace (r : Rune) : Bool :=
  if r ≤ 0xFF then
    r = 0x09 ∨ r = 0x0A ∨ r = 0x0B ∨ r = 0x0C ∨ r = 0x0D ∨ r = 0x20 ∨ r = 0x85 ∨ r = 0xA0
  else
    r = 0x1680 ∨ (0x2000 ≤ r ∧ r ≤ 0x200A) ∨ r = 0x2028 ∨ r = 0x2029 ∨ r = 0x202F ∨
      r = 0x205F ∨ r = 0x3000

/-- The function `stripWhitespace`: every rune that is not a space is written to the
builder. -/
def stripWhitespace (str : GoString) : GoString :=
  ((runes str).filter (fun ch => !isSpace ch)).flatMap encodeRune

/-! ## The variant filter of `run` -/

/-- The byte `,`. -/
def comma : Byte := 44

/-- Go `strings.Split(s, ",")`: the pieces of `s` between commas (one piece more than
there are commas). -/
def splitComma : GoString → List GoString
  | [] => [[]]
  | b :: rest =>
    if b = comma then [] :: splitComma rest
    else match splitComma rest with
      | [] => [[b]]
      | t :: ts => (b :: t) :: ts

/-- The keys of the `map[string]bool` that `run` builds from one flag: `nil` (no key)
when the stripped string is empty, otherwise every comma-split token mapped to `true`. -/
def tokenSet (flag : GoString) : List GoString :=
  let str := stripWhitespace flag
  if str.length > 0 then splitComma str else []

/-- A Go `map[string]string`, as the list of its entries. -/
abbrev GoMap := List (GoString × GoString)

/-- The assignment `m[key] = value`. -/
def GoMap.set (m : GoMap) (key value : GoString) : GoMap :=
  m.filter (fun e => e.1 ≠ key) ++ [(key, value)]

/-- The read `m[key]`: the zero value `""` when the key is absent. -/
def GoMap.get (m : GoMap) (key : GoString) : GoString :=
  (m.lookup key).getD []

/-- A well-formed map holds each key once. -/
def GoMap.WF (m : GoMap) : Prop := (m.map Prod.fst).Nodup

instance (m : GoMap) : Decidable m.WF :=
  inferInstanceAs (Decidable (m.map Prod.fst).Nodup)

/-- The body of the loop of `run` over `artifactToPath`, for the entry `e`. -/
def selectStep (incl ignore : List GoString) (enforceInclude : Bool)
    (artifactsToDownload : GoMap) (e : GoString × GoString) : GoMap :=
  if decide (e.1 ∈ ignore) then artifactsToDownload
  else if enforceInclude && !decide (e.1 ∈ incl) then artifactsToDownload
  else artifactsToDownload.set e.1 e.2

/-- The loop of `run` that builds `artifactsToDownload` from the two token sets;
`enforceInclude` is `len(include) > 0`. -/
def selectArtifacts (incl ignore : List GoString) (artifactToPath : GoMap) : GoMap :=
  artifactToPath.foldl (selectStep incl ignore (decide (incl.length > 0))) []

/-- The selection rule in the words of the specification: not ignored, and included
when the include set is non-empty. -/
def isSelected (incl ignore : List GoString) (key : GoString) : Bool :=
  !decide (key ∈ ignore) && (decide (incl = []) || decide (key ∈ incl))

/-- The map `artifactsToDownload` of `run`. -/
def artifactsToDownload (fl : Flags) (artifactToPath : GoMap) : GoMap :=
  selectArtifacts (tokenSet fl.includeCSV) (tokenSet fl.ignore) artifactToPath

/-! ## Version resolution in `run` -/

/-- The expression `imageVersions[sku][0:length - 6] + fl.date`; `none` is the run-time
panic for a slice bound below zero. -/
def resolveVersion (base date : GoString) : Option GoString :=
  let length : Int := base.length
  if length - 6 < 0 then none
  else some (base.take (length - 6).toNat ++ date)

/-- The base version without its last 6 bytes, followed by the date token. -/
def trimmedVersion (base date : GoString) : GoString :=
  base.take (base.length - 6) ++ date

/-! ## The coordinator of `run` -/

/-- The coordinator receives the pending send of task `i`, which then continues. -/
def recvFrom (tasks : List (List Msg)) (i : Nat) : Option (Msg × List (List Msg)) :=
  match tasks[i]? with
  | some (m :: rest) => some (m, tasks.set i rest)
  | _ => none

/-- The receive loop of `run`: `n` iterations of the `select`; the schedule names the
task whose send each iteration receives.  `none` when the schedule names a task with no
pending send. -/
def collect : Nat → List Nat → List (List Msg) → List GoString → Option (List GoString)
  | 0, _, _, errs => some errs
  | _ + 1, [], _, _ => none
  | n + 1, i :: sched, tasks, errs =>
    match recvFrom tasks i with
    | some (.err e, tasks') => collect n sched tasks' (errs ++ [e])
    | some (.done, tasks') => collect n sched tasks' errs
    | none => none

/-- A task's pending sends: nothing, or its remaining failures followed by done. -/
def Shape (t : List Msg) : Prop :=
  t = [] ∨ ∃ es : List GoString, t = es.map Msg.err ++ [Msg.done]

/-- The launch loop of `run`: the version of each selected variant is resolved and its
task started; `none` when a resolution panics.  Go leaves the iteration order of a map
open; the loop is taken in the order of the list, which is any order of the catalog. -/
def launch (fp : PathOps) (env : GoString → StepResults) (fl : Flags)
    (imageVersions : GoMap) : GoMap → Option (List (List Event))
  | [] => some []
  | (sku, path) :: more =>
    match resolveVersion (imageVersions.get sku) fl.date with
    | none => none
    | some version =>
      match launch fp env fl imageVersions more with
      | none => none
      | some tasks => some (getReleaseNotes fp (env sku) sku path fl version :: tasks)

/-- How a call of `run` ends. -/
inductive RunResult where
  | panicked
  | stuck
  | returned (errs : List GoString)
deriving DecidableEq, Repr

/-- The function `run`: selection, launch and collection.  The table `imageVersions` is
the global of that name as the scan of `windows-image.env` leaves it, `artifactToPath` the
catalog, `env sku` the outcomes met by the task of `sku`, and `sched` the order in which
the sends of the tasks reach the `select`. -/
def run (fp : PathOps) (env : GoString → StepResults) (sched : List Nat) (fl : Flags)
    (imageVersions artifactToPath : GoMap) : RunResult :=
  let selected := artifactsToDownload fl artifactToPath
  match launch fp env fl imageVersions selected with
  | none => .panicked
  | some tasks =>
    match collect selected.length sched (tasks.map sends) [] with
    | none => .stuck
    | some errs => .returned errs

/-! ## Concrete inputs used in the examples -/

/-- The byte `/`. -/
def slash : Byte := 47

/-- The byte `.`. -/
def dot : Byte := 46

/-- Go `strings.Split(p, "/")`: the pieces of a path between slashes. -/
def splitSlash : GoString → List GoString
  | [] => [[]]
  | b :: rest =>
    if b = slash then [] :: splitSlash rest
    else match splitSlash rest with
      | [] => [[b]]
      | t :: ts => (b :: t) :: ts

/-- One path element met by `filepath.Clean`; `kept` holds the elements written so far,
the last one first.  An empty element and `.` are dropped; `..` removes the element
before it, is dropped at the root and is kept at the start of a relative path. -/
def cleanStep (rooted : Bool) (kept : List GoString) (seg : GoString) : List GoString :=
  if seg = [] ∨ seg = [dot] then kept
  else if seg = [dot, dot] then
    match kept with
    | [] => if rooted then [] else [seg]
    | top :: below => if top = [dot, dot] then seg :: top :: below else below
  else seg :: kept

/-- Go `filepath.Clean` with `/` as the separator: the shortest equivalent path, `.` for
the empty one. -/
def filepathClean (p : GoString) : GoString :=
  let rooted : Bool := p.head? = some slash
  let kept := ((splitSlash p).foldl (cleanStep rooted) []).reverse
  let out := (if rooted then [slash] else []) ++ List.intercalate [slash] kept
  if out = [] then [dot] else out

/-- Go `filepath.Join` of two elements: empty elements are ignored, the others joined by
a slash and cleaned; the empty string when both are empty. -/
def filepathJoin (a b : GoString) : GoString :=
  if a = [] then (if b = [] then [] else filepathClean b)
  else filepathClean (a ++ [slash] ++ b)

/-- Go `filepath.Dir`: the path up to its last slash, cleaned. -/
def filepathDir (p : GoString) : GoString :=
  filepathClean (p.reverse.dropWhile (fun b => b ≠ slash)).reverse

/-- The path functions of `path/filepath` where the separator is `/`. -/
def slashPaths : PathOps where
  join := filepathJoin
  dir := filepathDir

/-- Example flags: build `76289801`, output root `out`, date `240101`. -/
def sampleFlags (incl ignore : GoString) : Flags :=
  ⟨goStr "76289801", incl, ignore, goStr "out", goStr "240101"⟩

/-- Example outcomes, each step given separately; the workspace is `/tmp/rn1`. -/
def sampleResults (tempFails notesFails : Bool) : StepResults :=
  ⟨if tempFails then .error (goStr "no space") else .ok (goStr "/tmp/rn1"),
   none, none,
   if notesFails then (goStr "ERROR", some (goStr "exit status 1")) else ([], none),
   none, ([], none), none⟩

/-- Example base-version table: the variants `a` and `b`, both at `9.9.9-999999`. -/
def sampleVersions : GoMap :=
  [(goStr "a", goStr "9.9.9-999999"), (goStr "b", goStr "9.9.9-999999")]

/-- Example base-version table with two different bases: `a` at `1.2.3-240101` and `b` at
`8.8.8-888888`. -/
def mixedVersions : GoMap :=
  [(goStr "a", goStr "1.2.3-240101"), (goStr "b", goStr "8.8.8-888888")]

/-- Example flags with the date `240615`, nothing included or ignored. -/
def juneFlags : Flags :=
  ⟨goStr "76289801", [], [], goStr "out", goStr "240615"⟩

/-- Example catalog: variant `a` goes to `a`, variant `b` to `b`. -/
def sampleCatalog : GoMap := [(goStr "a", goStr "a"), (goStr "b", goStr "b")]

end Winnote

/-! # Theorems -/

set_option maxRecDepth 100000

namespace Winnote

/-! ## The fetch task -/

/-- The sends of a task are its failures, each on the error channel, followed by the
one send on the done channel that the task defers. -/
theorem sends_getReleaseNotes (fp : PathOps) (env : StepResults) (sku path : GoString)
    (fl : Flags) (version : GoString) :
    sends (getReleaseNotes fp env sku path fl version) =
      (failures (getReleaseNotes fp env sku path fl version)).map Msg.err ++ [Msg.done] := by
  obtain ⟨t, mp, mo, ⟨o1, nd⟩, nr, ⟨o2, bd⟩, br⟩ := env
  cases t <;> cases mp <;> cases mo <;> cases nd <;> cases nr <;> cases bd <;> cases br <;>
    simp [getReleaseNotes, sends, failures]

/-- Claim C4, evaluated on the code: when the notes download fails (all earlier steps
succeeding) one execution of `getReleaseNotes` sends two messages, the failure on the
error channel and then the deferred signal on the done channel, not one. -/
theorem getReleaseNotes_sends_twice_on_failure :
    sends (getReleaseNotes slashPaths (sampleResults false true) (goStr "a") (goStr "a")
      (sampleFlags [] []) (goStr "9.9.9-240101")) =
      [Msg.err (goStr ("failed to download az devops releaseNotes for sku a, " ++
        "err: exit status 1, output: ERROR")), Msg.done] := by
  decide

/-- Claim C7, evaluated on the code: when the workspace cannot be created and the notes
download fails, the task reports two failures on the error channel (workspace, then
notes), not one; the manifest download and the renames are not attempted. -/
theorem getReleaseNotes_two_failures_on_notes_failure :
    getReleaseNotes slashPaths (sampleResults true true) (goStr "a") (goStr "a")
      (sampleFlags [] []) (goStr "9.9.9-240101") =
      [Event.tempDir,
       Event.sendErr (goStr "failed to create temp working directory: no space"),
       Event.mkdirAll (goStr "out"),
       Event.mkdirAll (goStr "out/a"),
       Event.printf (goStr "downloading releaseNotes " ++ [quote] ++
         goStr "vhd-release-notes-a" ++ [quote] ++ goStr " from build " ++ [quote] ++
         goStr "76289801" ++ [quote] ++ goStr "\n"),
       Event.download (goStr "76289801") [] (goStr "vhd-release-notes-a"),
       Event.sendErr (goStr ("failed to download az devops releaseNotes for sku a, " ++
         "err: exit status 1, output: ERROR")),
       Event.removeAll [],
       Event.sendDone] := by
  decide

/-- When the workspace was created and both directories exist, a failing notes download
ends the task: one failure is reported, no manifest download and no rename follows. -/
theorem getReleaseNotes_notes_failure (fp : PathOps) (env : StepResults)
    (sku path : GoString) (fl : Flags) (version tmpdir stdout e : GoString)
    (htmp : env.tempDir = .ok tmpdir) (hp : env.mkdirParent = none)
    (ho : env.mkdirOut = none) (hn : env.notesDownload = (stdout, some e)) :
    getReleaseNotes fp env sku path fl version =
      [Event.tempDir,
       Event.mkdirAll (fp.dir (fp.join fl.path path)),
       Event.mkdirAll (fp.join fl.path path),
       Event.printf (goStr "downloading releaseNotes " ++ [quote] ++
         (goStr "vhd-release-notes-" ++ sku) ++ [quote] ++ goStr " from build " ++ [quote] ++
         fl.build ++ [quote] ++ goStr "\n"),
       Event.download fl.build tmpdir (goStr "vhd-release-notes-" ++ sku),
       Event.sendErr (goStr "failed to download az devops releaseNotes for sku " ++ sku ++
         goStr ", err: " ++ e ++ goStr ", output: " ++ stdout),
       Event.removeAll tmpdir,
       Event.sendDone] := by
  obtain ⟨t, mp, mo, nd, nr, bd, br⟩ := env
  simp only at htmp hp ho hn
  subst htmp hp ho hn
  simp [getReleaseNotes]

/-- Claim C8, evaluated on the code: when the workspace cannot be created the task
reports the failure and then goes on with the empty workspace name: it creates both
output directories, runs both downloads into the path `""` and renames
`release-notes.txt` and `image-bom.json` of the current directory. -/
theorem getReleaseNotes_continues_after_workspace_failure :
    getReleaseNotes slashPaths (sampleResults true false) (goStr "a") (goStr "a")
      (sampleFlags [] []) (goStr "9.9.9-240101") =
      [Event.tempDir,
       Event.sendErr (goStr "failed to create temp working directory: no space"),
       Event.mkdirAll (goStr "out"),
       Event.mkdirAll (goStr "out/a"),
       Event.printf (goStr "downloading releaseNotes " ++ [quote] ++
         goStr "vhd-release-notes-a" ++ [quote] ++ goStr " from build " ++ [quote] ++
         goStr "76289801" ++ [quote] ++ goStr "\n"),
       Event.download (goStr "76289801") [] (goStr "vhd-release-notes-a"),
       Event.rename (goStr "release-notes.txt") (goStr "out/a/9.9.9-240101.txt"),
       Event.download (goStr "76289801") [] (goStr "vhd-image-bom-a"),
       Event.rename (goStr "image-bom.json") (goStr "out/a/9.9.9-240101-image-list.json"),
       Event.removeAll [],
       Event.sendDone] := by
  decide

/-- Claim C9: a fully successful `getReleaseNotes` performs exactly this sequence: it
creates the output directory, downloads `vhd-release-notes-<sku>` into the workspace and
renames `release-notes.txt` to `join (join root subpath) (version ++ ".txt")`, then
downloads `vhd-image-bom-<sku>` and renames `image-bom.json` to
`join (join root subpath) (version ++ "-image-list.json")`, removes the workspace and
signals done without reporting a failure. -/
theorem getReleaseNotes_success_layout (fp : PathOps) (env : StepResults)
    (sku path : GoString) (fl : Flags) (version tmpdir : GoString)
    (hok : env.allOk tmpdir) :
    getReleaseNotes fp env sku path fl version =
      [Event.tempDir,
       Event.mkdirAll (fp.dir (fp.join fl.path path)),
       Event.mkdirAll (fp.join fl.path path),
       Event.printf (goStr "downloading releaseNotes " ++ [quote] ++
         (goStr "vhd-release-notes-" ++ sku) ++ [quote] ++ goStr " from build " ++ [quote] ++
         fl.build ++ [quote] ++ goStr "\n"),
       Event.download fl.build tmpdir (goStr "vhd-release-notes-" ++ sku),
       Event.rename (fp.join tmpdir (goStr "release-notes.txt"))
         (fp.join (fp.join fl.path path) (version ++ goStr ".txt")),
       Event.download fl.build tmpdir (goStr "vhd-image-bom-" ++ sku),
       Event.rename (fp.join tmpdir (goStr "image-bom.json"))
         (fp.join (fp.join fl.path path) (version ++ goStr "-image-list.json")),
       Event.removeAll tmpdir,
       Event.sendDone] := by
  obtain ⟨t, mp, mo, ⟨o1, nd⟩, nr, ⟨o2, bd⟩, br⟩ := env
  obtain ⟨h1, h2, h3, h4, h5, h6, h7⟩ := hok
  simp only at h1 h2 h3 h4 h5 h6 h7
  subst h1 h2 h3 h4 h5 h6 h7
  simp [getReleaseNotes]

/-- Witness for C9: variant `a` with base `9.9.9-999999`, date `240101` and output root
`out` is placed at `out/a/9.9.9-240101.txt` and `out/a/9.9.9-240101-image-list.json`. -/
theorem getReleaseNotes_success_layout_witness :
    (sampleResults false false).allOk (goStr "/tmp/rn1") ∧
    resolveVersion (sampleVersions.get (goStr "a")) (goStr "240101") =
      some (goStr "9.9.9-240101") ∧
    getReleaseNotes slashPaths (sampleResults false false) (goStr "a") (goStr "a")
      (sampleFlags (goStr "a") []) (goStr "9.9.9-240101") =
      [Event.tempDir,
       Event.mkdirAll (goStr "out"),
       Event.mkdirAll (goStr "out/a"),
       Event.printf (goStr "downloading releaseNotes " ++ [quote] ++
         goStr "vhd-release-notes-a" ++ [quote] ++ goStr " from build " ++ [quote] ++
         goStr "76289801" ++ [quote] ++ goStr "\n"),
       Event.download (goStr "76289801") (goStr "/tmp/rn1") (goStr "vhd-release-notes-a"),
       Event.rename (goStr "/tmp/rn1/release-notes.txt") (goStr "out/a/9.9.9-240101.txt"),
       Event.download (goStr "76289801") (goStr "/tmp/rn1") (goStr "vhd-image-bom-a"),
       Event.rename (goStr "/tmp/rn1/image-bom.json")
         (goStr "out/a/9.9.9-240101-image-list.json"),
       Event.removeAll (goStr "/tmp/rn1"),
       Event.sendDone] :=
  ⟨⟨rfl, rfl, rfl, rfl, rfl, rfl, rfl⟩, by decide,
    getReleaseNotes_success_layout slashPaths (sampleResults false false) (goStr "a")
      (goStr "a") (sampleFlags (goStr "a") []) (goStr "9.9.9-240101") (goStr "/tmp/rn1")
      ⟨rfl, rfl, rfl, rfl, rfl, rfl, rfl⟩⟩

/-! ## Version resolution -/

/-- A selected variant whose version resolution panics stops the launch loop. -/
theorem launch_eq_none_of_mem (fp : PathOps) (env : GoString → StepResults) (fl : Flags)
    (imageVersions : GoMap) (selected : GoMap) (sku path : GoString)
    (hmem : (sku, path) ∈ selected)
    (hres : resolveVersion (imageVersions.get sku) fl.date = none) :
    launch fp env fl imageVersions selected = none := by
  induction selected with
  | nil => simp at hmem
  | cons e more ih =>
    obtain ⟨k, v⟩ := e
    rcases List.mem_cons.mp hmem with h | h
    · cases h
      simp [launch, hres]
    · simp only [launch]
      cases resolveVersion (imageVersions.get k) fl.date with
      | none => rfl
      | some version => simp [ih h]

/-- A version that is resolved is the base without its last 6 bytes, then the date. -/
theorem resolveVersion_some (base date version : GoString)
    (h : resolveVersion base date = some version) :
    6 ≤ base.length ∧ version = trimmedVersion base date := by
  unfold resolveVersion at h
  by_cases hlt : ((base.length : Nat) : Int) - 6 < 0
  · simp only [hlt, if_true] at h
    cases h
  · have h2 : (((base.length : Nat) : Int) - 6).toNat = base.length - 6 := by omega
    simp only [hlt, if_false, h2, Option.some.injEq] at h
    exact ⟨by omega, h.symm⟩

/-- A base of at least 6 bytes is resolved. -/
theorem resolveVersion_of_le (base date : GoString) (h : 6 ≤ base.length) :
    resolveVersion base date = some (trimmedVersion base date) := by
  unfold resolveVersion trimmedVersion
  have h1 : ¬ (((base.length : Nat) : Int) - 6 < 0) := by omega
  have h2 : (((base.length : Nat) : Int) - 6).toNat = base.length - 6 := by omega
  simp only [h1, if_false, h2]

/-- The tasks the launch loop starts: one per selected variant, in order, each with the
trimmed version of its own variant. -/
theorem launch_eq_map (fp : PathOps) (env : GoString → StepResults) (fl : Flags)
    (imageVersions : GoMap) (selected : GoMap) :
    ∀ tasks, launch fp env fl imageVersions selected = some tasks →
      tasks = selected.map (fun e => getReleaseNotes fp (env e.1) e.1 e.2 fl
        (trimmedVersion (imageVersions.get e.1) fl.date)) := by
  induction selected with
  | nil => intro tasks h; simp only [launch, Option.some.injEq] at h; subst h; rfl
  | cons e more ih =>
    obtain ⟨k, v⟩ := e
    intro tasks h
    simp only [launch] at h
    cases hr : resolveVersion (imageVersions.get k) fl.date with
    | none => simp [hr] at h
    | some version =>
      cases hm : launch fp env fl imageVersions more with
      | none => simp [hr, hm] at h
      | some ts =>
        simp only [hr, hm, Option.some.injEq] at h
        subst h
        rw [ih ts hm, (resolveVersion_some _ _ _ hr).2]
        rfl

/-- When every selected variant has a base of at least 6 bytes the launch loop does not
panic. -/
theorem launch_of_le (fp : PathOps) (env : GoString → StepResults) (fl : Flags)
    (imageVersions : GoMap) (selected : GoMap)
    (hlen : ∀ e ∈ selected, 6 ≤ (imageVersions.get e.1).length) :
    launch fp env fl imageVersions selected =
      some (selected.map (fun e => getReleaseNotes fp (env e.1) e.1 e.2 fl
        (trimmedVersion (imageVersions.get e.1) fl.date))) := by
  induction selected with
  | nil => rfl
  | cons e more ih =>
    obtain ⟨k, v⟩ := e
    have hk := hlen (k, v) (List.mem_cons_self _ _)
    have hm := ih (fun x hx => hlen x (List.mem_cons_of_mem _ hx))
    simp only [launch, resolveVersion_of_le _ _ hk, hm, List.map_cons]

/-- Claim C5: a base version longer than 6 bytes resolves to the base without its last 6
bytes followed by the date token, for every base and date.  The tasks `run` launches are,
whenever the launch loop completes, one per selected variant, the task at each position
being `getReleaseNotes` for the variant at that position with the trimmed version of
that variant's own base; and when every selected variant has a base longer than 6 bytes
the loop does complete and `run` collects from exactly these tasks. -/
theorem resolveVersion_trims_suffix (fp : PathOps) (env : GoString → StepResults)
    (sched : List Nat) (fl : Flags) (imageVersions artifactToPath : GoMap) :
    (∀ pre suf date : GoString, pre ≠ [] → suf.length = 6 →
      resolveVersion (pre ++ suf) date = some (pre ++ date)) ∧
    (∀ base date : GoString, 6 < base.length →
      resolveVersion base date = some (base.take (base.length - 6) ++ date)) ∧
    (∀ tasks,
      launch fp env fl imageVersions (artifactsToDownload fl artifactToPath) = some tasks →
      tasks = (artifactsToDownload fl artifactToPath).map
        (fun e => getReleaseNotes fp (env e.1) e.1 e.2 fl
          ((imageVersions.get e.1).take ((imageVersions.get e.1).length - 6) ++ fl.date))) ∧
    ((∀ e ∈ artifactsToDownload fl artifactToPath, 6 < (imageVersions.get e.1).length) →
      launch fp env fl imageVersions (artifactsToDownload fl artifactToPath) =
        some ((artifactsToDownload fl artifactToPath).map
          (fun e => getReleaseNotes fp (env e.1) e.1 e.2 fl
            ((imageVersions.get e.1).take ((imageVersions.get e.1).length - 6) ++ fl.date))) ∧
      run fp env sched fl imageVersions artifactToPath =
        match collect (artifactsToDownload fl artifactToPath).length sched
          (((artifactsToDownload fl artifactToPath).map
            (fun e => getReleaseNotes fp (env e.1) e.1 e.2 fl
              ((imageVersions.get e.1).take ((imageVersions.get e.1).length - 6) ++
                fl.date))).map sends) [] with
        | none => RunResult.stuck
        | some errs => RunResult.returned errs) := by
  refine ⟨?_, ?_, ?_, ?_⟩
  · intro pre suf date _ hsuf
    have h := resolveVersion_of_le (pre ++ suf) date (by rw [List.length_append]; omega)
    rw [h]
    unfold trimmedVersion
    have hl : (pre ++ suf).length - 6 = pre.length := by rw [List.length_append]; omega
    rw [hl, List.take_left]
  · intro base date h
    exact resolveVersion_of_le base date (by omega)
  · intro tasks h
    exact launch_eq_map fp env fl imageVersions _ tasks h
  · intro hlen
    have hl := launch_of_le fp env fl imageVersions (artifactsToDownload fl artifactToPath)
      (fun e he => Nat.le_of_lt (hlen e he))
    refine ⟨hl, ?_⟩
    unfold run
    simp only [hl]
    rfl

/-- Witness for C5: base `1.2.3-240101` with date `240615` gives `1.2.3-240615`, and with
the variants `a` (base `1.2.3-240101`) and `b` (base `8.8.8-888888`) selected the task of
`a` gets `1.2.3-240615` and the task of `b` gets `8.8.8-240615`. -/
theorem resolveVersion_trims_suffix_witness :
    (∀ e ∈ artifactsToDownload juneFlags sampleCatalog, 6 < (mixedVersions.get e.1).length) ∧
    resolveVersion (goStr "1.2.3-240101") (goStr "240615") = some (goStr "1.2.3-240615") ∧
    launch slashPaths (fun _ => sampleResults false false) juneFlags mixedVersions
      (artifactsToDownload juneFlags sampleCatalog) =
      some [getReleaseNotes slashPaths (sampleResults false false) (goStr "a") (goStr "a")
              juneFlags (goStr "1.2.3-240615"),
            getReleaseNotes slashPaths (sampleResults false false) (goStr "b") (goStr "b")
              juneFlags (goStr "8.8.8-240615")] :=
  ⟨by decide,
    (resolveVersion_trims_suffix slashPaths (fun _ => sampleResults false false) [0, 1]
      juneFlags mixedVersions sampleCatalog).1 (goStr "1.2.3-") (goStr "240101")
      (goStr "240615") (by decide) (by decide),
    ((resolveVersion_trims_suffix slashPaths (fun _ => sampleResults false false) [0, 1]
      juneFlags mixedVersions sampleCatalog).2.2.2 (by decide)).1⟩

/-- Counterexample to C6 as stated: a base version of exactly 6 bytes does not fail; the
whole base is cut away and the version is the date token alone. -/
theorem resolveVersion_length_six_succeeds :
    (goStr "240101").length ≤ 6 ∧
    resolveVersion (goStr "240101") (goStr "240615") = some (goStr "240615") ∧
    run slashPaths (fun _ => sampleResults false false) [0] (sampleFlags [] [])
      [(goStr "a", goStr "240101")] [(goStr "a", goStr "a")] = RunResult.returned [] := by
  decide

/-- Claim C6 as amended: when a selected variant has a base version shorter than 6
bytes (an absent variant has the empty base version), version resolution panics and `run`
ends in that panic; no version string is produced. -/
theorem run_panics_on_short_version (fp : PathOps) (env : GoString → StepResults)
    (sched : List Nat) (fl : Flags) (imageVersions artifactToPath : GoMap)
    (sku path : GoString)
    (hsel : (sku, path) ∈ artifactsToDownload fl artifactToPath)
    (hlen : (imageVersions.get sku).length < 6) :
    resolveVersion (imageVersions.get sku) fl.date = none ∧
    run fp env sched fl imageVersions artifactToPath = RunResult.panicked := by
  have hres : resolveVersion (imageVersions.get sku) fl.date = none := by
    unfold resolveVersion
    have h1 : (((imageVersions.get sku).length : Nat) : Int) - 6 < 0 := by omega
    simp only [h1, if_true]
  refine ⟨hres, ?_⟩
  unfold run
  simp only [launch_eq_none_of_mem fp env fl imageVersions _ sku path hsel hres]

/-- Witness for C6 as amended: variant `a` is selected and absent from the table. -/
theorem run_panics_on_short_version_witness :
    (goStr "a", goStr "a") ∈ artifactsToDownload (sampleFlags [] []) sampleCatalog ∧
    (GoMap.get [] (goStr "a")).length < 6 ∧
    resolveVersion (GoMap.get [] (goStr "a")) (sampleFlags [] []).date = none ∧
    run slashPaths (fun _ => sampleResults false false) [] (sampleFlags [] []) []
      sampleCatalog = RunResult.panicked :=
  ⟨by decide, by decide,
    run_panics_on_short_version slashPaths (fun _ => sampleResults false false) []
      (sampleFlags [] []) [] sampleCatalog (goStr "a") (goStr "a") (by decide) (by decide)⟩


/-! ## The variant filter -/

/-- Assigning a key the map does not hold adds one entry. -/
theorem GoMap.set_of_not_mem (m : GoMap) (key value : GoString)
    (h : key ∉ m.map Prod.fst) : m.set key value = m ++ [(key, value)] := by
  unfold GoMap.set
  congr 1
  apply List.filter_eq_self.mpr
  intro e he
  have : e.1 ≠ key := fun hk => h (hk ▸ List.mem_map_of_mem Prod.fst he)
  simpa using this

/-- The loop body either assigns the entry or leaves the map, following the rule. -/
theorem selectStep_eq (incl ignore : List GoString) (acc : GoMap) (e : GoString × GoString) :
    selectStep incl ignore (decide (incl.length > 0)) acc e =
      if isSelected incl ignore e.1 then acc.set e.1 e.2 else acc := by
  unfold selectStep isSelected
  cases incl with
  | nil => by_cases hig : e.1 ∈ ignore <;> simp [hig]
  | cons t ts =>
    by_cases hig : e.1 ∈ ignore <;> by_cases hmem : e.1 ∈ t :: ts <;> simp [hig, hmem]

/-- The loop over a well-formed catalog, started from any map with other keys, appends
the selected entries in catalog order. -/
theorem foldl_selectStep (incl ignore : List GoString) (l : GoMap) :
    ∀ acc : GoMap, (l.map Prod.fst).Nodup → (∀ e ∈ l, e.1 ∉ acc.map Prod.fst) →
    l.foldl (selectStep incl ignore (decide (incl.length > 0))) acc =
      acc ++ l.filter (fun e => isSelected incl ignore e.1) := by
  induction l with
  | nil => intro acc _ _; simp
  | cons e more ih =>
    intro acc hnd hdis
    have hnd' : (more.map Prod.fst).Nodup := (List.nodup_cons.mp hnd).2
    have hfresh : e.1 ∉ more.map Prod.fst := (List.nodup_cons.mp hnd).1
    have hacc : e.1 ∉ acc.map Prod.fst := hdis e (List.mem_cons_self _ _)
    rw [List.foldl_cons, selectStep_eq, List.filter_cons]
    by_cases hsel : isSelected incl ignore e.1 = true
    · rw [if_pos hsel, if_pos hsel, GoMap.set_of_not_mem acc e.1 e.2 hacc, ih _ hnd']
      · simp
      · intro x hx
        simp only [List.map_append, List.map_cons, List.map_nil, List.mem_append,
          List.mem_singleton, not_or]
        refine ⟨hdis x (List.mem_cons_of_mem _ hx), ?_⟩
        intro hxe
        exact hfresh (hxe ▸ List.mem_map_of_mem Prod.fst hx)
    · rw [if_neg hsel, if_neg hsel]
      exact ih acc hnd' (fun x hx => hdis x (List.mem_cons_of_mem _ hx))

/-- On a well-formed catalog the selection loop is a filter of the catalog. -/
theorem selectArtifacts_eq_filter (incl ignore : List GoString) (artifactToPath : GoMap)
    (hwf : artifactToPath.WF) :
    selectArtifacts incl ignore artifactToPath =
      artifactToPath.filter (fun e => isSelected incl ignore e.1) := by
  unfold selectArtifacts
  simpa using foldl_selectStep incl ignore artifactToPath [] hwf (by simp)

/-- Claim C1: for every include string, ignore string and well-formed catalog, the map
`artifactsToDownload` holds each key once and its entries are exactly the catalog entries
(with the catalog's path) whose key is, when the include token set is non-empty, in the
include set and not in the ignore set, and when it is empty, not in the ignore set; the
token sets are the comma-split pieces of the whitespace-stripped strings, empty when the
stripped string is empty. -/
theorem artifactsToDownload_exact (fl : Flags) (artifactToPath : GoMap)
    (hwf : artifactToPath.WF) :
    (artifactsToDownload fl artifactToPath).WF ∧
    (tokenSet fl.includeCSV ≠ [] → ∀ key value,
      (key, value) ∈ artifactsToDownload fl artifactToPath ↔
        (key, value) ∈ artifactToPath ∧ key ∈ tokenSet fl.includeCSV ∧
          key ∉ tokenSet fl.ignore) ∧
    (tokenSet fl.includeCSV = [] → ∀ key value,
      (key, value) ∈ artifactsToDownload fl artifactToPath ↔
        (key, value) ∈ artifactToPath ∧ key ∉ tokenSet fl.ignore) ∧
    (∀ flag, tokenSet flag =
      if stripWhitespace flag = [] then [] else splitComma (stripWhitespace flag)) := by
  have heq := selectArtifacts_eq_filter (tokenSet fl.includeCSV) (tokenSet fl.ignore)
    artifactToPath hwf
  refine ⟨?_, ?_, ?_, ?_⟩
  · unfold artifactsToDownload GoMap.WF
    rw [heq]
    exact (List.Nodup.sublist (List.Sublist.map _ (List.filter_sublist _)) hwf)
  · intro hne key value
    unfold artifactsToDownload
    rw [heq, List.mem_filter]
    simp only [isSelected, hne, decide_False, Bool.false_or, Bool.and_eq_true,
      Bool.not_eq_true', decide_eq_false_iff_not, decide_eq_true_eq]
    tauto
  · intro he key value
    unfold artifactsToDownload
    rw [heq, List.mem_filter]
    simp only [isSelected, he, decide_True, Bool.true_or, Bool.and_true,
      Bool.not_eq_true', decide_eq_false_iff_not]
  · intro flag
    unfold tokenSet
    cases h : stripWhitespace flag <;> simp

/-- Witness for C1: include `a`, nothing ignored, catalog with variants `a` and `b`. -/
theorem artifactsToDownload_exact_witness :
    sampleCatalog.WF ∧
    artifactsToDownload (sampleFlags (goStr "a") []) sampleCatalog = [(goStr "a", goStr "a")] ∧
    ((artifactsToDownload (sampleFlags (goStr "a") []) sampleCatalog).WF ∧
    (tokenSet (sampleFlags (goStr "a") []).includeCSV ≠ [] → ∀ key value,
      (key, value) ∈ artifactsToDownload (sampleFlags (goStr "a") []) sampleCatalog ↔
        (key, value) ∈ sampleCatalog ∧ key ∈ tokenSet (sampleFlags (goStr "a") []).includeCSV ∧
          key ∉ tokenSet (sampleFlags (goStr "a") []).ignore) ∧
    (tokenSet (sampleFlags (goStr "a") []).includeCSV = [] → ∀ key value,
      (key, value) ∈ artifactsToDownload (sampleFlags (goStr "a") []) sampleCatalog ↔
        (key, value) ∈ sampleCatalog ∧ key ∉ tokenSet (sampleFlags (goStr "a") []).ignore) ∧
    (∀ flag, tokenSet flag =
      if stripWhitespace flag = [] then [] else splitComma (stripWhitespace flag))) :=
  ⟨by decide, by decide,
    artifactsToDownload_exact (sampleFlags (goStr "a") []) sampleCatalog (by decide)⟩


/-! ## The coordinator -/

/-- The launch loop starts one task per selected variant. -/
theorem launch_length (fp : PathOps) (env : GoString → StepResults) (fl : Flags)
    (imageVersions : GoMap) (selected : GoMap) :
    ∀ tasks, launch fp env fl imageVersions selected = some tasks →
      tasks.length = selected.length := by
  induction selected with
  | nil => intro tasks h; simp [launch] at h; simp [← h]
  | cons e more ih =>
    obtain ⟨k, v⟩ := e
    intro tasks h
    simp only [launch] at h
    cases hr : resolveVersion (imageVersions.get k) fl.date with
    | none => simp [hr] at h
    | some version =>
      cases hm : launch fp env fl imageVersions more with
      | none => simp [hr, hm] at h
      | some ts =>
        simp only [hr, hm, Option.some.injEq] at h
        subst h
        simp [ih ts hm]

/-- Every launched task is an execution of `getReleaseNotes`. -/
theorem launch_mem (fp : PathOps) (env : GoString → StepResults) (fl : Flags)
    (imageVersions : GoMap) (selected : GoMap) :
    ∀ tasks, launch fp env fl imageVersions selected = some tasks →
      ∀ t ∈ tasks, ∃ e sku path version, t = getReleaseNotes fp e sku path fl version := by
  induction selected with
  | nil =>
    intro tasks h t ht
    simp only [launch, Option.some.injEq] at h
    subst h
    simp at ht
  | cons e more ih =>
    obtain ⟨k, v⟩ := e
    intro tasks h
    simp only [launch] at h
    cases hr : resolveVersion (imageVersions.get k) fl.date with
    | none => simp [hr] at h
    | some version =>
      cases hm : launch fp env fl imageVersions more with
      | none => simp [hr, hm] at h
      | some ts =>
        simp only [hr, hm, Option.some.injEq] at h
        subst h
        intro t ht
        rcases List.mem_cons.mp ht with h1 | h1
        · exact ⟨env k, k, v, version, h1⟩
        · exact ih ts hm t h1

/-- The errors already collected stay at the front of the returned list. -/
theorem collect_keeps_errs : ∀ (n : Nat) (sched : List Nat) (tasks : List (List Msg))
    (errs r : List GoString), collect n sched tasks errs = some r → ∃ more, r = errs ++ more := by
  intro n
  induction n with
  | zero => intro sched tasks errs r h; simp [collect] at h; exact ⟨[], by simp [h]⟩
  | succ n ih =>
    intro sched tasks errs r h
    cases sched with
    | nil => simp [collect] at h
    | cons i s =>
      simp only [collect] at h
      cases hr : recvFrom tasks i with
      | none => simp [hr] at h
      | some p =>
        obtain ⟨m, tasks'⟩ := p
        cases m with
        | err e =>
          simp only [hr] at h
          obtain ⟨more, hm⟩ := ih s tasks' (errs ++ [e]) r h
          exact ⟨e :: more, by simp [hm]⟩
        | done =>
          simp only [hr] at h
          exact ih s tasks' errs r h

/-- What `recvFrom` returns: the head of task `i`, which keeps its tail. -/
theorem recvFrom_some (tasks : List (List Msg)) (i : Nat) (m : Msg) (tasks' : List (List Msg))
    (h : recvFrom tasks i = some (m, tasks')) :
    ∃ rest, tasks[i]? = some (m :: rest) ∧ tasks' = tasks.set i rest := by
  unfold recvFrom at h
  cases hg : tasks[i]? with
  | none => rw [hg] at h; simp at h
  | some t =>
    cases t with
    | nil => rw [hg] at h; simp at h
    | cons m0 rest =>
      rw [hg] at h
      simp only [Option.some.injEq, Prod.mk.injEq] at h
      exact ⟨rest, by rw [h.1], h.2.symm⟩

/-- Emptying a task that was waiting with its done signal lowers the number of such
tasks by one. -/
theorem count_done_set (tasks : List (List Msg)) :
    ∀ i, tasks[i]? = some [Msg.done] →
      (tasks.set i []).count [Msg.done] + 1 = tasks.count [Msg.done] := by
  induction tasks with
  | nil => intro i h; simp at h
  | cons t ts ih =>
    intro i h
    cases i with
    | zero =>
      simp only [List.getElem?_cons_zero, Option.some.injEq] at h
      subst h
      simp [List.count_cons]
    | succ j =>
      simp only [List.getElem?_cons_succ] at h
      have := ih j h
      simp only [List.set_cons_succ, List.count_cons]
      omega

/-- If the loop returns no error, every message it received was the done signal of a task
that had nothing else to send. -/
theorem collect_nil_count : ∀ (n : Nat) (sched : List Nat) (tasks : List (List Msg)),
    (∀ t ∈ tasks, Shape t) → collect n sched tasks [] = some [] →
      n ≤ tasks.count [Msg.done] := by
  intro n
  induction n with
  | zero => intro _ _ _ _; exact Nat.zero_le _
  | succ n ih =>
    intro sched tasks hshape h
    cases sched with
    | nil => simp [collect] at h
    | cons i s =>
      simp only [collect] at h
      cases hr : recvFrom tasks i with
      | none => simp [hr] at h
      | some p =>
        obtain ⟨m, tasks'⟩ := p
        obtain ⟨rest, hget, hset⟩ := recvFrom_some tasks i m tasks' hr
        cases m with
        | err e =>
          simp only [hr] at h
          obtain ⟨more, hm⟩ := collect_keeps_errs n s tasks' ([] ++ [e]) [] h
          simp at hm
        | done =>
          simp only [hr] at h
          have hmem : (Msg.done :: rest) ∈ tasks := List.getElem?_mem hget
          have hrest : rest = [] := by
            rcases hshape _ hmem with h0 | ⟨es, hes⟩
            · simp at h0
            · cases es with
              | nil => simpa using hes
              | cons e es' => simp at hes
          subst hrest
          subst hset
          have hshape' : ∀ t ∈ tasks.set i [], Shape t := by
            intro t ht
            rcases List.mem_or_eq_of_mem_set ht with h1 | h1
            · exact hshape t h1
            · exact Or.inl h1
          have := ih s (tasks.set i []) hshape' h
          have := count_done_set tasks i hget
          omega

/-- While every task still has a send pending, the loop completes when it takes the
tasks in launch order. -/
theorem collect_in_order : ∀ (n k : Nat) (tasks : List (List Msg)) (errs : List GoString),
    (∀ j t, k ≤ j → j < k + n → tasks[j]? = some t → t ≠ []) → tasks.length = k + n →
      ∃ r, collect n (List.range' k n) tasks errs = some r := by
  intro n
  induction n with
  | zero => intro k tasks errs _ _; exact ⟨errs, rfl⟩
  | succ n ih =>
    intro k tasks errs hne hlen
    have hk : k < tasks.length := by omega
    have hget : tasks[k]? = some tasks[k] := List.getElem?_eq_getElem hk
    have hnonempty := hne k _ (Nat.le_refl k) (by omega) hget
    obtain ⟨m, rest, hmr⟩ := List.exists_cons_of_ne_nil hnonempty
    rw [hmr] at hget
    have hrecv : recvFrom tasks k = some (m, tasks.set k rest) := by
      unfold recvFrom
      rw [hget]
    have hne' : ∀ j t, k + 1 ≤ j → j < k + 1 + n → (tasks.set k rest)[j]? = some t → t ≠ [] := by
      intro j t hj hj' hjt
      rw [List.getElem?_set_ne (by omega)] at hjt
      exact hne j t (by omega) (by omega) hjt
    have hlen' : (tasks.set k rest).length = k + 1 + n := by
      rw [List.length_set]; omega
    rw [List.range'_succ]
    simp only [collect, hrecv]
    cases m with
    | err e => exact ih (k + 1) _ _ hne' hlen'
    | done => exact ih (k + 1) _ _ hne' hlen'

/-- Claim C3: whatever the number of launched tasks and the order in which their sends
are received, if `run` returns the empty error list then no launched task reported a
failure; so when some launched task reports a failure the returned list is non-empty.
`run` does return for some order of the sends, and with no selected variant it returns
the empty list at once, for every schedule, the loop receiving nothing. -/
theorem run_nil_iff_no_failure (fp : PathOps) (env : GoString → StepResults) (fl : Flags)
    (imageVersions artifactToPath : GoMap) :
    (∀ sched tasks,
      launch fp env fl imageVersions (artifactsToDownload fl artifactToPath) = some tasks →
      run fp env sched fl imageVersions artifactToPath = RunResult.returned [] →
      ∀ t ∈ tasks, failures t = []) ∧
    (∀ sched tasks errs,
      launch fp env fl imageVersions (artifactsToDownload fl artifactToPath) = some tasks →
      run fp env sched fl imageVersions artifactToPath = RunResult.returned errs →
      (∃ t ∈ tasks, failures t ≠ []) → errs ≠ []) ∧
    (∀ tasks,
      launch fp env fl imageVersions (artifactsToDownload fl artifactToPath) = some tasks →
      ∃ sched errs, run fp env sched fl imageVersions artifactToPath =
        RunResult.returned errs) ∧
    (artifactsToDownload fl artifactToPath = [] →
      ∀ sched, run fp env sched fl imageVersions artifactToPath = RunResult.returned [] ∧
        collect 0 sched [] [] = some []) := by
  have hshape : ∀ tasks,
      launch fp env fl imageVersions (artifactsToDownload fl artifactToPath) = some tasks →
      ∀ t ∈ tasks.map sends, Shape t := by
    intro tasks hl t ht
    obtain ⟨tr, htr, rfl⟩ := List.mem_map.mp ht
    obtain ⟨e, sku, path, version, rfl⟩ := launch_mem fp env fl imageVersions _ tasks hl tr htr
    exact Or.inr ⟨_, sends_getReleaseNotes fp e sku path fl version⟩
  have hmain : ∀ sched tasks,
      launch fp env fl imageVersions (artifactsToDownload fl artifactToPath) = some tasks →
      run fp env sched fl imageVersions artifactToPath = RunResult.returned [] →
      ∀ t ∈ tasks, failures t = [] := by
    intro sched tasks hl hrun t ht
    unfold run at hrun
    simp only [hl] at hrun
    cases hc : collect (artifactsToDownload fl artifactToPath).length sched (tasks.map sends) []
      with
    | none => simp [hc] at hrun
    | some r =>
      simp only [hc, RunResult.returned.injEq] at hrun
      subst hrun
      have hcount := collect_nil_count _ sched (tasks.map sends) (hshape tasks hl) hc
      have hlen := launch_length fp env fl imageVersions _ tasks hl
      have hle : (tasks.map sends).count [Msg.done] ≤ (tasks.map sends).length :=
        List.count_le_length _ _
      have heq : (tasks.map sends).count [Msg.done] = (tasks.map sends).length := by
        rw [List.length_map] at hle ⊢
        omega
      have hall := List.count_eq_length.mp heq
      have hs : [Msg.done] = sends t := hall (sends t) (List.mem_map_of_mem sends ht)
      obtain ⟨e, sku, path, version, rfl⟩ := launch_mem fp env fl imageVersions _ tasks hl t ht
      rw [sends_getReleaseNotes] at hs
      cases hf : failures (getReleaseNotes fp e sku path fl version) with
      | nil => rfl
      | cons a as => rw [hf] at hs; simp at hs
  refine ⟨hmain, ?_, ?_, ?_⟩
  · intro sched tasks errs hl hrun ⟨t, ht, hfail⟩ herrs
    subst herrs
    exact hfail (hmain sched tasks hl hrun t ht)
  · intro tasks hl
    have hlen := launch_length fp env fl imageVersions _ tasks hl
    obtain ⟨r, hr⟩ := collect_in_order (artifactsToDownload fl artifactToPath).length 0
      (tasks.map sends) []
      (by
        intro j t _ _ hjt
        have hmem : t ∈ tasks.map sends := List.getElem?_mem hjt
        rcases hshape tasks hl t (List.getElem?_mem hjt) with h0 | ⟨es, hes⟩
        · obtain ⟨tr, htr, rfl⟩ := List.mem_map.mp hmem
          obtain ⟨e, sku, path, version, rfl⟩ :=
            launch_mem fp env fl imageVersions _ tasks hl tr htr
          rw [sends_getReleaseNotes] at h0
          simp at h0
        · rw [hes]; simp)
      (by rw [List.length_map, hlen]; omega)
    refine ⟨List.range' 0 (artifactsToDownload fl artifactToPath).length, r, ?_⟩
    unfold run
    simp only [hl, hr]
  · intro hnil sched
    refine ⟨?_, rfl⟩
    unfold run
    rw [hnil]
    simp [launch, collect]

/-- Witness for C3: both variants are fetched successfully, their done signals are
received in launch order and `run` returns the empty list. -/
theorem run_nil_iff_no_failure_witness :
    launch slashPaths (fun _ => sampleResults false false) (sampleFlags [] []) sampleVersions
      (artifactsToDownload (sampleFlags [] []) sampleCatalog) =
      some [getReleaseNotes slashPaths (sampleResults false false) (goStr "a") (goStr "a")
              (sampleFlags [] []) (goStr "9.9.9-240101"),
            getReleaseNotes slashPaths (sampleResults false false) (goStr "b") (goStr "b")
              (sampleFlags [] []) (goStr "9.9.9-240101")] ∧
    run slashPaths (fun _ => sampleResults false false) [0, 1] (sampleFlags [] [])
      sampleVersions sampleCatalog = RunResult.returned [] ∧
    ∀ t ∈ [getReleaseNotes slashPaths (sampleResults false false) (goStr "a") (goStr "a")
              (sampleFlags [] []) (goStr "9.9.9-240101"),
            getReleaseNotes slashPaths (sampleResults false false) (goStr "b") (goStr "b")
              (sampleFlags [] []) (goStr "9.9.9-240101")], failures t = [] :=
  ⟨by decide, by decide,
    (run_nil_iff_no_failure slashPaths (fun _ => sampleResults false false) (sampleFlags [] [])
      sampleVersions sampleCatalog).1 [0, 1] _ (by decide) (by decide)⟩

/-- Claim C2, evaluated on the code: with two launched tasks whose notes downloads both
fail, when the coordinator receives the failure of the first task and then the done
signal that task defers, the loop has its two messages and `run` returns only the first
failure; the failure the second task reports is dropped, that task never having been
received from. -/
theorem run_drops_a_failure :
    run slashPaths (fun _ => sampleResults false true) [0, 0] (sampleFlags [] [])
      sampleVersions sampleCatalog =
      RunResult.returned [goStr ("failed to download az devops releaseNotes for sku a, " ++
        "err: exit status 1, output: ERROR")] ∧
    failures (getReleaseNotes slashPaths (sampleResults false true) (goStr "b") (goStr "b")
      (sampleFlags [] []) (goStr "9.9.9-240101")) =
      [goStr ("failed to download az devops releaseNotes for sku b, " ++
        "err: exit status 1, output: ERROR")] := by
  decide


/-! ## `stripWhitespace` -/

theorem val_ofNat (n : Nat) : (Fin.ofNat n : Fin 256).val = n % 256 := rfl

theorem decodeRune_one (b0 : Byte) (rest : GoString) (h : b0.val < 0x80) :
    decodeRune (b0 :: rest) = (b0.val, 1) := by
  simp [decodeRune, h]

theorem decodeRune_two (b0 b1 : Byte) (rest : GoString)
    (h0 : 0xC2 ≤ b0.val ∧ b0.val ≤ 0xDF) (h1 : 0x80 ≤ b1.val ∧ b1.val ≤ 0xBF) :
    decodeRune (b0 :: b1 :: rest) = (b0.val % 32 * 64 + b1.val % 64, 2) := by
  have c0 : ¬ (b0.val < 0x80) := by omega
  simp only [decodeRune, c0, h0, h1, if_true, if_false, and_self]

theorem decodeRune_three (b0 b1 b2 : Byte) (rest : GoString)
    (h0 : 0xE0 ≤ b0.val ∧ b0.val ≤ 0xEF)
    (h1 : (if b0.val = 0xE0 then 0xA0 else 0x80) ≤ b1.val ∧
      b1.val ≤ (if b0.val = 0xED then 0x9F else 0xBF) ∧ 0x80 ≤ b2.val ∧ b2.val ≤ 0xBF) :
    decodeRune (b0 :: b1 :: b2 :: rest) =
      (b0.val % 16 * 4096 + b1.val % 64 * 64 + b2.val % 64, 3) := by
  have c0 : ¬ (b0.val < 0x80) := by omega
  have c1 : ¬ (0xC2 ≤ b0.val ∧ b0.val ≤ 0xDF) := by omega
  simp only [decodeRune, c0, c1, h0, h1, if_true, if_false, and_self]

theorem decodeRune_four (b0 b1 b2 b3 : Byte) (rest : GoString)
    (h0 : 0xF0 ≤ b0.val ∧ b0.val ≤ 0xF4)
    (h1 : (if b0.val = 0xF0 then 0x90 else 0x80) ≤ b1.val ∧
      b1.val ≤ (if b0.val = 0xF4 then 0x8F else 0xBF) ∧ 0x80 ≤ b2.val ∧ b2.val ≤ 0xBF ∧
      0x80 ≤ b3.val ∧ b3.val ≤ 0xBF) :
    decodeRune (b0 :: b1 :: b2 :: b3 :: rest) =
      (b0.val % 8 * 262144 + b1.val % 64 * 4096 + b2.val % 64 * 64 + b3.val % 64, 4) := by
  have c0 : ¬ (b0.val < 0x80) := by omega
  have c1 : ¬ (0xC2 ≤ b0.val ∧ b0.val ≤ 0xDF) := by omega
  have c2 : ¬ (0xE0 ≤ b0.val ∧ b0.val ≤ 0xEF) := by omega
  simp only [decodeRune, c0, c1, c2, h0, h1, if_true, if_false, and_self]

/-- Decoding the encoding of a scalar value gives it back, with the encoding's width. -/
theorem decodeRune_encodeRune (r : Nat) (hr : validRune r) (rest : GoString) :
    decodeRune (encodeRune r ++ rest) = (r, (encodeRune r).length) ∧
      1 ≤ (encodeRune r).length := by
  unfold validRune at hr
  unfold encodeRune
  by_cases h1 : r < 0x80
  · simp only [h1, if_true, List.singleton_append, List.length_singleton]
    rw [decodeRune_one _ _ (by rw [val_ofNat]; omega), val_ofNat]
    have : r % 256 = r := by omega
    simp [this]
  · by_cases h2 : r < 0x800
    · simp only [h1, h2, if_true, if_false, List.cons_append, List.nil_append,
        List.length_cons, List.length_nil]
      rw [decodeRune_two _ _ _ (by rw [val_ofNat]; omega) (by rw [val_ofNat]; omega)]
      simp only [val_ofNat]
      refine ⟨?_, by omega⟩
      congr 1
      omega
    · have h3 : ¬ (0x10FFFF < r ∨ (0xD800 ≤ r ∧ r ≤ 0xDFFF)) := by omega
      by_cases h4 : r < 0x10000
      · simp only [h1, h2, h3, h4, if_true, if_false, List.cons_append, List.nil_append,
          List.length_cons, List.length_nil]
        rw [decodeRune_three _ _ _ _ (by rw [val_ofNat]; omega)
          (by simp only [val_ofNat]; split <;> split <;> omega)]
        simp only [val_ofNat]
        refine ⟨?_, by omega⟩
        congr 1
        omega
      · simp only [h1, h2, h3, h4, if_true, if_false, List.cons_append, List.nil_append,
          List.length_cons, List.length_nil]
        rw [decodeRune_four _ _ _ _ _ (by rw [val_ofNat]; omega)
          (by simp only [val_ofNat]; split <;> split <;> omega)]
        simp only [val_ofNat]
        refine ⟨?_, by omega⟩
        congr 1
        omega


/-- Every rune `range` yields is a scalar value, and a non-empty string is consumed by
at least one byte per rune. -/
theorem decodeRune_valid (s : GoString) :
    validRune (decodeRune s).1 ∧ (s ≠ [] → 1 ≤ (decodeRune s).2) := by
  cases s with
  | nil => simp [decodeRune, runeError, validRune]
  | cons b0 rest =>
    have hb0 := b0.isLt
    simp only [decodeRune, ne_eq, not_false_eq_true, forall_const, reduceCtorEq]
    repeat (any_goals split)
    all_goals simp only [validRune, runeError]
    all_goals omega


/-- The fuel of the `range` loop does not matter once it covers the string. -/
theorem runesAux_fuel : ∀ (f1 f2 : Nat) (s : GoString), s.length ≤ f1 → s.length ≤ f2 →
    runesAux f1 s = runesAux f2 s := by
  intro f1
  induction f1 with
  | zero =>
    intro f2 s h1 _
    have hs : s = [] := List.length_eq_zero.mp (Nat.le_zero.mp h1)
    subst hs
    cases f2 <;> rfl
  | succ n ih =>
    intro f2 s h1 h2
    cases s with
    | nil => cases f2 <;> rfl
    | cons b rest =>
      cases f2 with
      | zero => simp at h2
      | succ m =>
        have hw := (decodeRune_valid (b :: rest)).2 (by simp)
        simp only [runesAux]
        congr 1
        apply ih
        · simp only [List.length_drop, List.length_cons] at h1 ⊢; omega
        · simp only [List.length_drop, List.length_cons] at h2 ⊢; omega

/-- One iteration of the `range` loop. -/
theorem runes_step (s : GoString) (hs : s ≠ []) :
    runes s = (decodeRune s).1 :: runes (s.drop (decodeRune s).2) := by
  cases s with
  | nil => exact absurd rfl hs
  | cons b rest =>
    have hw := (decodeRune_valid (b :: rest)).2 (by simp)
    unfold runes
    simp only [List.length_cons, runesAux]
    congr 1
    apply runesAux_fuel
    · simp only [List.length_drop, List.length_cons]; omega
    · exact Nat.le_refl _

/-- Every rune of a string is a scalar value. -/
theorem runesAux_valid : ∀ (fuel : Nat) (s : GoString), ∀ r ∈ runesAux fuel s, validRune r := by
  intro fuel
  induction fuel with
  | zero => intro s r hr; simp [runesAux] at hr
  | succ n ih =>
    intro s r hr
    cases s with
    | nil => simp [runesAux] at hr
    | cons b rest =>
      simp only [runesAux, List.mem_cons] at hr
      rcases hr with h | h
      · rw [h]; exact (decodeRune_valid (b :: rest)).1
      · exact ih _ r h

/-- Writing scalar values and ranging over the result gives the values back. -/
theorem runes_flatMap_encodeRune (rs : List Nat) (hv : ∀ r ∈ rs, validRune r) :
    runes (rs.flatMap encodeRune) = rs := by
  induction rs with
  | nil => rfl
  | cons r more ih =>
    have hr := hv r (List.mem_cons_self _ _)
    obtain ⟨hdec, hlen⟩ := decodeRune_encodeRune r hr (more.flatMap encodeRune)
    have hne : encodeRune r ++ more.flatMap encodeRune ≠ [] := by
      intro h
      have := congrArg List.length h
      simp only [List.length_append, List.length_nil] at this
      omega
    rw [List.flatMap_cons, runes_step _ hne, hdec]
    simp only [List.drop_left]
    rw [ih (fun x hx => hv x (List.mem_cons_of_mem _ hx))]

/-- The runes of the stripped string are the non-space runes of the string, in order. -/
theorem runes_stripWhitespace (str : GoString) :
    runes (stripWhitespace str) = (runes str).filter (fun ch => !isSpace ch) := by
  unfold stripWhitespace
  apply runes_flatMap_encodeRune
  intro r hr
  exact runesAux_valid _ str r (List.mem_of_mem_filter hr)

/-- Claim C10: `stripWhitespace` keeps exactly the runes that are not Unicode spaces, in
order (so its result holds no space and stripping twice changes nothing), and two flag
strings with the same non-space runes, such as `a, b` and `a,b`, give the same token set;
flags that agree in this way on include and on ignore give the same selection. -/
theorem stripWhitespace_irrelevant_whitespace :
    (∀ str, runes (stripWhitespace str) = (runes str).filter (fun ch => !isSpace ch)) ∧
    (∀ str, ∀ ch ∈ runes (stripWhitespace str), isSpace ch = false) ∧
    (∀ str, stripWhitespace (stripWhitespace str) = stripWhitespace str) ∧
    (∀ s1 s2 : GoString,
      (runes s1).filter (fun ch => !isSpace ch) = (runes s2).filter (fun ch => !isSpace ch) →
      stripWhitespace s1 = stripWhitespace s2 ∧ tokenSet s1 = tokenSet s2) ∧
    (∀ (fl1 fl2 : Flags) (artifactToPath : GoMap),
      (runes fl1.includeCSV).filter (fun ch => !isSpace ch) =
        (runes fl2.includeCSV).filter (fun ch => !isSpace ch) →
      (runes fl1.ignore).filter (fun ch => !isSpace ch) =
        (runes fl2.ignore).filter (fun ch => !isSpace ch) →
      artifactsToDownload fl1 artifactToPath = artifactsToDownload fl2 artifactToPath) ∧
    tokenSet (goStr "a, b") = tokenSet (goStr "a,b") ∧
    tokenSet (goStr "a,b") = [goStr "a", goStr "b"] := by
  have hstrip : ∀ s1 s2 : GoString,
      (runes s1).filter (fun ch => !isSpace ch) = (runes s2).filter (fun ch => !isSpace ch) →
      stripWhitespace s1 = stripWhitespace s2 := by
    intro s1 s2 h
    unfold stripWhitespace
    rw [h]
  have htok : ∀ s1 s2 : GoString, stripWhitespace s1 = stripWhitespace s2 →
      tokenSet s1 = tokenSet s2 := by
    intro s1 s2 h
    unfold tokenSet
    rw [h]
  refine ⟨runes_stripWhitespace, ?_, ?_, ?_, ?_, by decide, by decide⟩
  · intro str ch hch
    rw [runes_stripWhitespace] at hch
    simpa using (List.mem_filter.mp hch).2
  · intro str
    have h := runes_stripWhitespace str
    show ((runes (stripWhitespace str)).filter (fun ch => !isSpace ch)).flatMap encodeRune =
      stripWhitespace str
    rw [h, List.filter_filter]
    simp only [Bool.and_self]
    rfl
  · intro s1 s2 h
    exact ⟨hstrip s1 s2 h, htok s1 s2 (hstrip s1 s2 h)⟩
  · intro fl1 fl2 artifactToPath hi hg
    unfold artifactsToDownload
    rw [htok _ _ (hstrip _ _ hi), htok _ _ (hstrip _ _ hg)]

/-- Witness for C10: the include strings `a, b` and `a ,b` select the same variants. -/
theorem stripWhitespace_irrelevant_whitespace_witness :
    artifactsToDownload (sampleFlags (goStr "a, b") []) sampleCatalog =
      artifactsToDownload (sampleFlags (goStr "a ,b") []) sampleCatalog :=
  stripWhitespace_irrelevant_whitespace.2.2.2.2.1 (sampleFlags (goStr "a, b") [])
    (sampleFlags (goStr "a ,b") []) sampleCatalog (by decide) (by decide)

end Winnote
